import Mathlib

/-!
Verification of the butterfly factorization core (`butterfly.py`).

The source is shallowly embedded: torch tensors of shape `(n,)` become
`Fin n → R`, matrices become `Matrix (Fin n) (Fin n) R`, and the complex
variant (tensors with a trailing 2-wide real axis combined by the rule
`(ar*br - ai*bi, ar*bi + ai*br)`) is embedded as `ℂ`, whose multiplication
is exactly that rule.  Definitions are generic over a commutative ring `R`
so that the real case (`R = ℝ`) and the complex case (`R = ℂ`) are both
instances of the same embedded code path, mirroring how the python code
switches only the elementwise multiply (`operator.mul` vs `complex_mul`).
In-place tensor mutation (the Sinkhorn iterations) is embedded by explicit
state passing: the function returns the final contents of the mutated
tensor.
-/

namespace Butterfly

/-- `torch.diag(d) + torch.diag(sub, -k) + torch.diag(sup, k)`
(and, in the complex branch, the same placement done per real/imaginary
slab by `torch.diag_embed` on the transposed parameter tensors):
the dense matrix of `Butterfly.matrix`, with `d` on the main diagonal,
`sub` on the `k`-th subdiagonal and `sup` on the `k`-th superdiagonal. -/
def bMatrix {R : Type} [CommRing R] (n k : ℕ) (d : Fin n → R)
    (sub sup : Fin (n - k) → R) : Matrix (Fin n) (Fin n) R :=
  fun i j =>
    (if i = j then d i else 0)
    + (if h : (j : ℕ) < n - k ∧ (i : ℕ) = (j : ℕ) + k then sub ⟨j, h.1⟩ else 0)
    + (if h : (i : ℕ) < n - k ∧ (j : ℕ) = (i : ℕ) + k then sup ⟨i, h.1⟩ else 0)

/-- `Butterfly.forward` on a single size-`n` vector (the python code
broadcasts this over leading batch dimensions):
`output = diag * input`, then
`output[k:] += subdiag * input[:-k]` and
`output[:-k] += superdiag * input[k:]`.
The complex branch is the same code with the elementwise complex multiply,
i.e. this definition at `R = ℂ`. -/
def bForward {R : Type} [CommRing R] (n k : ℕ) (d : Fin n → R)
    (sub sup : Fin (n - k) → R) (x : Fin n → R) : Fin n → R :=
  fun i =>
    d i * x i
    + (if h : k ≤ (i : ℕ) ∧ (i : ℕ) - k < n - k then
        sub ⟨(i : ℕ) - k, h.2⟩ * x ⟨(i : ℕ) - k, lt_of_le_of_lt (Nat.sub_le _ _) i.isLt⟩
      else 0)
    + (if h : (i : ℕ) < n - k ∧ (i : ℕ) + k < n then
        sup ⟨i, h.1⟩ * x ⟨(i : ℕ) + k, h.2⟩
      else 0)

/-- `Butterfly.forward` applied to a batch (one row per batch element),
which is what the broadcasting over leading dimensions does. -/
def bForwardBatch {R : Type} [CommRing R] (b n k : ℕ) (d : Fin n → R)
    (sub sup : Fin (n - k) → R) (x : Matrix (Fin b) (Fin n) R) :
    Matrix (Fin b) (Fin n) R :=
  fun r => bForward n k d sub sup (x r)

/-- The shape of a torch tensor, as a list of dimension sizes. -/
abbrev Shape := List ℕ

/-- `Butterfly.__init__`: records whether construction succeeds.
`size` is a python int `n`, `diagonal` a python int `k` (possibly `≤ 0`),
`cplx` the `complex` flag, and `dg`, `sb`, `sp` the shapes of explicitly
supplied `diag`/`subdiag`/`superdiag` tensors (`none` = not supplied, in
which case the code random-initializes a tensor of the expected shape).
The code asserts `size > diagonal` and, for each supplied tensor, that its
shape equals the expected shape (`(size,)`/`(size-diagonal,)`, with a
trailing `2` when complex); `size - diagonal` is python int subtraction.
`shapeMatches` is the per-tensor shape assertion (vacuous when the tensor
is not supplied and the code random-initializes it). -/
def shapeMatches (s : Option Shape) (expected : List ℤ) : Bool :=
  match s with
  | none => true
  | some l => decide (l.map (Int.ofNat) = expected)

/-- The expected shape of the `diag` parameter of a `Butterfly`. -/
def diagShape (size : ℕ) (cplx : Bool) : List ℤ :=
  if cplx then [(size : ℤ), 2] else [(size : ℤ)]

/-- The expected shape of the `subdiag`/`superdiag` parameters of a
`Butterfly`; `size - diagonal` is python int subtraction. -/
def offShape (size : ℕ) (diagonal : ℤ) (cplx : Bool) : List ℤ :=
  if cplx then [(size : ℤ) - diagonal, 2] else [(size : ℤ) - diagonal]

/-- `Butterfly.__init__`: whether construction succeeds, i.e. whether
`assert size > diagonal` and the three shape assertions all pass. -/
def bInitOk (size : ℕ) (diagonal : ℤ) (cplx : Bool)
    (dg sb sp : Option Shape) : Bool :=
  decide ((size : ℤ) > diagonal) && shapeMatches dg (diagShape size cplx)
    && shapeMatches sb (offShape size diagonal cplx)
    && shapeMatches sp (offShape size diagonal cplx)

end Butterfly

namespace Butterfly

/-- Real part of a complex matrix, entrywise (`matrix()[..., 0]`). -/
def reSlab {p q : ℕ} (M : Matrix (Fin p) (Fin q) ℂ) : Matrix (Fin p) (Fin q) ℝ :=
  fun i j => (M i j).re

/-- Imaginary part of a complex matrix, entrywise (`matrix()[..., 1]`). -/
def imSlab {p q : ℕ} (M : Matrix (Fin p) (Fin q) ℂ) : Matrix (Fin p) (Fin q) ℝ :=
  fun i j => (M i j).im

end Butterfly

namespace Sinkhorn

/-- `logit -= torch.logsumexp(logit, dim=-1, keepdim=True)`:
subtract from every entry the log of the sum of exponentials of its row. -/
noncomputable def rowNorm {n : ℕ} (L : Matrix (Fin n) (Fin n) ℝ) : Matrix (Fin n) (Fin n) ℝ :=
  fun i j => L i j - Real.log (∑ t : Fin n, Real.exp (L i t))

/-- `logit -= torch.logsumexp(logit, dim=-2, keepdim=True)`:
subtract from every entry the log of the sum of exponentials of its column. -/
noncomputable def colNorm {n : ℕ} (L : Matrix (Fin n) (Fin n) ℝ) : Matrix (Fin n) (Fin n) ℝ :=
  fun i j => L i j - Real.log (∑ t : Fin n, Real.exp (L t j))

/-- One pass of the loop body of `sinkhorn`: a row normalization followed
by a column normalization, in log space. -/
noncomputable def sinkhornIter {n : ℕ} (L : Matrix (Fin n) (Fin n) ℝ) : Matrix (Fin n) (Fin n) ℝ :=
  colNorm (rowNorm L)

/-- The contents of the caller's `logit` tensor after `sinkhorn(logit, n_iters)`
returns (the code subtracts from `logit` in place, `n_iters` times each way). -/
noncomputable def sinkhornLogit {n : ℕ} (L : Matrix (Fin n) (Fin n) ℝ) (iters : ℕ) :
    Matrix (Fin n) (Fin n) ℝ :=
  sinkhornIter^[iters] L

/-- `sinkhorn(logit, n_iters)`: the returned matrix `torch.exp(logit)`
after the in-place iterations. -/
noncomputable def sinkhorn {n : ℕ} (L : Matrix (Fin n) (Fin n) ℝ) (iters : ℕ) :
    Matrix (Fin n) (Fin n) ℝ :=
  (sinkhornLogit L iters).map Real.exp

end Sinkhorn

namespace MatrixProduct

/-- A factor held by `MatrixProduct`: any object exposing a dense `matrix()`
and being callable on (a batch of) vectors.  `mat` embeds `factor.matrix()`
and `app` embeds `factor(vector)` on a single size-`n` vector. -/
structure Factor (R : Type) [CommRing R] (n : ℕ) where
  mat : Matrix (Fin n) (Fin n) R
  app : (Fin n → R) → (Fin n → R)

/-- `functools.reduce(matmul_op, matrices)`: the left-associated product of
a list of matrices; `none` when the list is empty (where `reduce` raises). -/
def reduceMul {R : Type} [CommRing R] {n : ℕ} :
    List (Matrix (Fin n) (Fin n) R) → Option (Matrix (Fin n) (Fin n) R)
  | [] => none
  | M :: rest => some (rest.foldl (· * ·) M)

/-- `MatrixProduct.matrix` in fixed-order mode: the left-to-right product of
each factor's dense matrix, in list order. -/
def mpMatrixFixed {R : Type} [CommRing R] {n : ℕ} (fs : List (Factor R n)) :
    Option (Matrix (Fin n) (Fin n) R) :=
  reduceMul (fs.map Factor.mat)

/-- `MatrixProduct.forward` in fixed-order mode:
`for factor in self.factors[::-1]: output = factor(output)`. -/
def mpForwardFixed {R : Type} [CommRing R] {n : ℕ} (fs : List (Factor R n))
    (x : Fin n → R) : Fin n → R :=
  fs.reverse.foldl (fun v f => f.app v) x

/-- `exp` extended to logits that may be `-inf` (python `float('-inf')`),
embedded as `none`: IEEE arithmetic gives `exp(-inf) = 0`. -/
noncomputable def expO : Option ℝ → ℝ
  | none => 0
  | some a => Real.exp a

/-- One row of `nn.functional.softmax(logit, dim=-1)` on possibly `-inf`
logits: each exponential divided by the row sum of exponentials. -/
noncomputable def softmaxO {m : ℕ} (row : Fin m → Option ℝ) : Fin m → ℝ :=
  fun k => expO (row k) / ∑ t : Fin m, expO (row t)

/-- One row of `nn.functional.softmax(logit, dim=-1)` on finite real logits. -/
noncomputable def softmaxR {m : ℕ} (row : Fin m → ℝ) : Fin m → ℝ :=
  fun k => Real.exp (row k) / ∑ t : Fin m, Real.exp (row t)

/-- The probability-weighted average of the candidate dense matrices used by
`matrix()` for one output term:
`(prob @ stack.reshape(stack.shape[0], -1)).reshape(...)` computes, per term,
`sum_k prob[i, k] * stack[k]`.  The weights are real; `emb` embeds them into
the entry ring (the identity for real tensors; `ℝ → ℂ` for the complex case,
where the same real weight scales the real and imaginary slabs alike). -/
def avgMat {R : Type} [CommRing R] {n m : ℕ} (emb : ℝ →+* R)
    (w : Fin m → ℝ) (mats : Fin m → Matrix (Fin n) (Fin n) R) :
    Matrix (Fin n) (Fin n) R :=
  ∑ k : Fin m, (emb (w k)) • mats k

/-- `MatrixProduct.matrix` in learned-order mode, given the per-term
probability rows `prob = softmax_fn(logit / temperature)`: the ordered
product of the per-term probability-weighted averaged matrices. -/
def mpMatrixLearned {R : Type} [CommRing R] {n m t : ℕ} (emb : ℝ →+* R)
    (prob : Fin t → Fin m → ℝ) (mats : Fin m → Matrix (Fin n) (Fin n) R) :
    Option (Matrix (Fin n) (Fin n) R) :=
  reduceMul ((List.ofFn prob).map (fun w => avgMat emb w mats))

/-- One step of the learned-order `forward` loop body:
`stack = torch.stack([factor(output) for factor in self.factors])` followed by
`(prob[i:i+1] @ stack.reshape(...)).reshape(...)`, i.e. the probability-weighted
average of each factor's direct application to the current vector. -/
def mixApply {R : Type} [CommRing R] {n m : ℕ} (emb : ℝ →+* R)
    (w : Fin m → ℝ) (fs : Fin m → Factor R n) (v : Fin n → R) : Fin n → R :=
  fun j => ∑ k : Fin m, emb (w k) * (fs k).app v j

/-- `MatrixProduct.forward` in learned-order mode, given the probability rows:
`for i in range(self.n_terms)[::-1]: output = weighted average of factor
applications with weights prob[i]`. -/
def mpForwardLearned {R : Type} [CommRing R] {n m t : ℕ} (emb : ℝ →+* R)
    (prob : Fin t → Fin m → ℝ) (fs : Fin m → Factor R n) (x : Fin n → R) :
    Fin n → R :=
  ((List.ofFn prob).reverse).foldl (fun v w => mixApply emb w fs v) x

/-- `MatrixProduct.__init__`: records whether construction succeeds.
The only assert is `softmax_fn in ['softmax', 'sparsemax']`, and it is only
executed when `fixed_order` is false. -/
def mpInitOk (fixedOrder : Bool) (softmaxFn : String) : Bool :=
  if fixedOrder then true
  else decide (softmaxFn = "softmax" ∨ softmaxFn = "sparsemax")

end MatrixProduct

namespace ButterflyProduct

open MatrixProduct

/-- `ButterflyProduct.__init__`: `m = int(math.log2(size))` followed by
`assert size == 1 << m`; on success, the factor list holds Butterfly factors
with `diagonal = 1 << i for i in range(m)[::-1]` and `n_terms` defaults to
`m`.  Returns the list of diagonal offsets and the term count, or `none`
when construction fails (`math.log2(0)` also raises). -/
def bpInit (size : ℕ) : Option (List ℕ × ℕ) :=
  let m := Nat.log2 size
  if size = 2 ^ m then some (((List.range m).reverse).map (fun i => 2 ^ i), m)
  else none

/-- The real case of the learned-permutation input transform in
`ButterflyProduct.forward`: `input_ = input_ @ perm.t()` (and, in the complex
case, the same multiplication applied to the real and the imaginary slab,
which is this definition with the real permutation entries embedded by
`emb`). -/
noncomputable def permApply {R : Type} [CommRing R] {n : ℕ} (emb : ℝ →+* R)
    (perm : Matrix (Fin n) (Fin n) ℝ) (x : Fin n → R) : Fin n → R :=
  Matrix.vecMul x ((perm.map emb).transpose)

/-- `ButterflyProduct.matrix` with `learn_perm=True` in the real case, in
(default) learned-order mode: the composed butterfly matrix right-multiplied
by the Sinkhorn-normalized permutation `sinkhorn(perm_logit / temperature)`
(`matrix = matrix @ perm` is an ordinary matrix product of two real `(n, n)`
tensors here; the complex branch of the same line is `bpMatrixPermComplex`
below, where the operands have mismatched shapes). -/
noncomputable def bpMatrixPerm {n m t : ℕ}
    (prob : Fin t → Fin m → ℝ) (mats : Fin m → Matrix (Fin n) (Fin n) ℝ)
    (permLogit : Matrix (Fin n) (Fin n) ℝ) (temp : ℝ) :
    Option (Matrix (Fin n) (Fin n) ℝ) :=
  (mpMatrixLearned (RingHom.id ℝ) prob mats).map
    (fun M => M * Sinkhorn.sinkhorn (permLogit.map (· / temp)) 5)

/-- `torch.matmul` of a 3-D real tensor of shape `(b, i, c)` with a 2-D
tensor of shape `(cp, p)`: the 3-D operand is treated as a batch of `b`
matrices of shape `(i, c)`, so the multiply is defined only when the inner
dimensions agree (`c = cp`) and raises a RuntimeError (`none` here)
otherwise. -/
noncomputable def matmul3d2d (b i c cp p : ℕ) (a : Fin b → Fin i → Fin c → ℝ)
    (w : Fin cp → Fin p → ℝ) : Option (Fin b → Fin i → Fin p → ℝ) :=
  if h : c = cp then some (fun r s t => ∑ u : Fin c, a r s u * w (Fin.cast h u) t)
  else none

/-- The complex execution of the line `matrix = matrix @ perm`: the composed
complex matrix is stored as an `(n, n, 2)` real tensor (trailing (re, im)
axis), so `@ perm` is `matmul3d2d` of that tensor by the `(n, n)`
permutation — a shape error whenever `2 ≠ n`, and for `n = 2` a contraction
of the (re, im) axis with `perm` rather than a complex matrix product. -/
noncomputable def matmulPairs (n : ℕ) (M : Matrix (Fin n) (Fin n) ℂ)
    (P : Matrix (Fin n) (Fin n) ℝ) : Option (Fin n → Fin n → Fin n → ℝ) :=
  matmul3d2d n n 2 n n (fun r s => ![(M r s).re, (M r s).im]) P

/-- `ButterflyProduct.matrix` with `learn_perm=True` in the complex case:
`super().matrix(temperature)` (the learned-order composed complex matrix)
followed by the literal `matrix @ perm` on the pair representation. -/
noncomputable def bpMatrixPermComplex {n m t : ℕ} (prob : Fin t → Fin m → ℝ)
    (mats : Fin m → Matrix (Fin n) (Fin n) ℂ)
    (permLogit : Matrix (Fin n) (Fin n) ℝ) (temp : ℝ) :
    Option (Fin n → Fin n → Fin n → ℝ) :=
  (mpMatrixLearned Complex.ofRealHom prob mats).bind
    (fun M => matmulPairs n M (Sinkhorn.sinkhorn (permLogit.map (· / temp)) 5))

/-- `ButterflyProduct.forward` with `learn_perm=True` in the real case, in
(default) learned-order mode: the input is multiplied by the transpose of
the Sinkhorn-normalized permutation, then passed to
`MatrixProduct.forward`. -/
noncomputable def bpForwardPerm {n m t : ℕ}
    (prob : Fin t → Fin m → ℝ) (fs : Fin m → Factor ℝ n)
    (permLogit : Matrix (Fin n) (Fin n) ℝ) (temp : ℝ) (x : Fin n → ℝ) :
    Fin n → ℝ :=
  mpForwardLearned (RingHom.id ℝ) prob fs
    (permApply (RingHom.id ℝ) (Sinkhorn.sinkhorn (permLogit.map (· / temp)) 5) x)

end ButterflyProduct

namespace Butterfly

/-- A `Butterfly` used as a `MatrixProduct` factor: it exposes `matrix()`
(`mat`) and is callable on a vector (`app`). -/
def bflyFactor {R : Type} [CommRing R] (n k : ℕ) (d : Fin n → R)
    (sub sup : Fin (n - k) → R) : MatrixProduct.Factor R n :=
  ⟨bMatrix n k d sub sup, bForward n k d sub sup⟩

end Butterfly

namespace ButterflyProduct

/-- The factor list built by `ButterflyProduct.__init__` for `size = 2^m`:
`[Butterfly(size, diagonal=1 << i, complex=complex) for i in range(m)[::-1]]`,
so the factor at list index `idx` has diagonal offset `2^(m-1-idx)`; the
parameters of each factor are the (normally randomly initialized) tensors
`d`, `sub`, `sup`. -/
def bpFactors {R : Type} [CommRing R] (m : ℕ) (d : Fin m → Fin (2 ^ m) → R)
    (sub sup : (i : Fin m) → Fin (2 ^ m - 2 ^ (m - 1 - (i : ℕ))) → R) :
    Fin m → MatrixProduct.Factor R (2 ^ m) :=
  fun i => Butterfly.bflyFactor (2 ^ m) (2 ^ (m - 1 - (i : ℕ))) (d i) (sub i) (sup i)

end ButterflyProduct

/-- A concrete 1x1 factor with the dense-matrix application, used to
evaluate the matrix-product equivalence on explicit data. -/
def wFactorA : MatrixProduct.Factor ℝ 1 :=
  ⟨!![2], fun v => Matrix.vecMul v ((!![2] : Matrix (Fin 1) (Fin 1) ℝ)).transpose⟩

/-- A second concrete 1x1 factor. -/
def wFactorB : MatrixProduct.Factor ℝ 1 :=
  ⟨!![3], fun v => Matrix.vecMul v ((!![3] : Matrix (Fin 1) (Fin 1) ℝ)).transpose⟩

/-- Concrete one-hot degenerate selection logits: finite on the diagonal,
`-inf` (`none`) elsewhere, as in `test_butterfly_product`. -/
def wLogit : Fin 2 → Fin 2 → Option ℝ := fun i j => if j = i then some 1 else none

namespace SpecialFFT

open Complex

/-- The reference Discrete Fourier Transform of size `N` (what `torch.fft`
computes, up to the `normalized` scaling):
`X_k = sum_{j < N} x_j * exp(-2*pi*I*j*k/N)`. -/
noncomputable def dftRef (N : ℕ) (x : ℕ → ℂ) (k : ℕ) : ℂ :=
  ∑ j ∈ Finset.range N, x j * Complex.exp (-(2 * Real.pi * Complex.I) * j * k / N)

/-- The reference transform with the `normalized` flag of `torch.fft`:
`normalized=True` scales by `1/sqrt(N)`. -/
noncomputable def dftRefN (N : ℕ) (normalized : Bool) (x : ℕ → ℂ) (k : ℕ) : ℂ :=
  (if normalized then (((Real.sqrt N : ℝ) : ℂ))⁻¹ else 1) * dftRef N x k

/-- Modelled from the spec: `torch_butterfly.special.fft` is not under
`src/`; §4.6 says the builder configures a Butterfly Product (the radix-2
butterfly network) that exactly computes the DFT, with `br_first=True`
meaning the bit-reversal permutation precedes the butterfly stages
(decimation in time).  This is the radix-2 decimation-in-time butterfly
recursion on `2^m` points: the transform of the even-indexed and the
odd-indexed subsequences combined with the twiddle `exp(-2*pi*I*k/2^(m+1))`;
the recursive even/odd decimation is exactly the bit-reversal reordering
applied before the stages. -/
noncomputable def ditRec : ℕ → (ℕ → ℂ) → ℕ → ℂ
  | 0, x, _ => x 0
  | m + 1, x, k =>
      ditRec m (fun j => x (2 * j)) k
      + Complex.exp (-(2 * Real.pi * Complex.I) * k / (2 ^ (m + 1))) *
          ditRec m (fun j => x (2 * j + 1)) k

/-- Modelled from the spec: the `br_first=False` ordering of
`torch_butterfly.special.fft` (butterfly stages first, bit-reversal after):
the radix-2 decimation-in-frequency butterfly recursion, whose output-index
parity split is exactly the bit-reversal reordering applied after the
stages. -/
noncomputable def difRec : ℕ → (ℕ → ℂ) → ℕ → ℂ
  | 0, x, _ => x 0
  | m + 1, x, k =>
      if k % 2 = 0 then
        difRec m (fun j => x j + x (j + 2 ^ m)) (k / 2)
      else
        difRec m
          (fun j => (x j - x (j + 2 ^ m)) *
            Complex.exp (-(2 * Real.pi * Complex.I) * j / (2 ^ (m + 1))))
          (k / 2)

/-- Modelled from the spec: `torch_butterfly.special.fft(n, normalized,
br_first)` as an operator on length-`n` complex inputs, for `n` a power of
two.  `normalized` controls the `1/sqrt(n)` scaling; `br_first` selects
whether the bit-reversal permutation comes before the stages (decimation in
time) or after them (decimation in frequency). -/
noncomputable def fftModel (n : ℕ) (normalized brFirst : Bool) (x : ℕ → ℂ)
    (k : ℕ) : ℂ :=
  (if normalized then (((Real.sqrt n : ℝ) : ℂ))⁻¹ else 1) *
    (if brFirst then ditRec (Nat.log2 n) x k else difRec (Nat.log2 n) x k)

end SpecialFFT


/-! ### Helper lemmas -/

theorem map_ofNat_inj (l en : List ℕ) : l.map Int.ofNat = en.map Int.ofNat ↔ l = en :=
  ⟨fun h => List.map_injective_iff.mpr (fun a b hab => Int.ofNat.inj hab) h, fun h => by rw [h]⟩

open Butterfly in
theorem shapeMatches_iff (s : Option Butterfly.Shape) (en : List ℕ) :
    shapeMatches s (en.map Int.ofNat) = true ↔ ∀ l ∈ s, l = en := by
  cases s <;> simp [shapeMatches, map_ofNat_inj]

theorem log2_two_pow (m : ℕ) : Nat.log2 (2 ^ m) = m := by
  rw [Nat.log2_eq_log_two]
  exact Nat.log_pow one_lt_two m

theorem range_reverse_pow (m : ℕ) :
    ((List.range m).map (fun i => 2 ^ i)).reverse =
      List.ofFn (fun i : Fin m => 2 ^ (m - 1 - (i : ℕ))) := by
  induction m with
  | zero => rfl
  | succ m ih =>
      rw [List.range_succ, List.map_append, List.reverse_append, List.ofFn_succ]
      simp only [List.map_cons, List.map_nil, List.reverse_singleton,
        List.singleton_append, ih]
      congr 1
      refine congrArg List.ofFn (funext fun i => ?_)
      simp only [Fin.val_succ]
      congr 1
      omega

open Butterfly in
theorem bForward_eq_vecMul {R : Type} [CommRing R] (n k : ℕ) (hkn : k < n)
    (d : Fin n → R) (sub sup : Fin (n - k) → R) (x : Fin n → R) :
    bForward n k d sub sup x = Matrix.vecMul x (bMatrix n k d sub sup).transpose := by
  funext i
  have hsum : Matrix.vecMul x (bMatrix n k d sub sup).transpose i
      = ∑ j : Fin n, x j * bMatrix n k d sub sup i j := by
    simp [Matrix.vecMul, Matrix.dotProduct, Matrix.transpose_apply]
  rw [hsum]
  simp only [bMatrix, mul_add]
  rw [Finset.sum_add_distrib, Finset.sum_add_distrib]
  have h1 : (∑ j : Fin n, x j * (if i = j then d i else 0)) = d i * x i := by
    simp [mul_ite, mul_comm]
  have h2 : (∑ j : Fin n,
      x j * (if h : (j : ℕ) < n - k ∧ (i : ℕ) = (j : ℕ) + k then sub ⟨j, h.1⟩ else 0)) =
      (if h : k ≤ (i : ℕ) ∧ (i : ℕ) - k < n - k then
        sub ⟨(i : ℕ) - k, h.2⟩ * x ⟨(i : ℕ) - k, lt_of_le_of_lt (Nat.sub_le _ _) i.isLt⟩
      else 0) := by
    by_cases hik : k ≤ (i : ℕ)
    · have hc : ((i : ℕ) - k) < n := lt_of_le_of_lt (Nat.sub_le _ _) i.isLt
      have hc2 : ((i : ℕ) - k) < n - k := by omega
      rw [Finset.sum_eq_single (⟨(i : ℕ) - k, hc⟩ : Fin n)]
      · rw [dif_pos ⟨hc2, (show (i : ℕ) = (i : ℕ) - k + k by omega)⟩, dif_pos ⟨hik, hc2⟩,
          mul_comm]
      · intro j _ hj
        rw [dif_neg, mul_zero]
        rintro ⟨hj1, hj2⟩
        exact hj (by apply Fin.ext; simp; omega)
      · intro h
        exact absurd (Finset.mem_univ _) h
    · rw [dif_neg (by omega)]
      apply Finset.sum_eq_zero
      intro j _
      rw [dif_neg, mul_zero]
      rintro ⟨hj1, hj2⟩
      omega
  have h3 : (∑ j : Fin n,
      x j * (if h : (i : ℕ) < n - k ∧ (j : ℕ) = (i : ℕ) + k then sup ⟨i, h.1⟩ else 0)) =
      (if h : (i : ℕ) < n - k ∧ (i : ℕ) + k < n then
        sup ⟨i, h.1⟩ * x ⟨(i : ℕ) + k, h.2⟩ else 0) := by
    by_cases hik : (i : ℕ) < n - k
    · have hc : ((i : ℕ) + k) < n := by omega
      rw [Finset.sum_eq_single (⟨(i : ℕ) + k, hc⟩ : Fin n)]
      · rw [dif_pos ⟨hik, rfl⟩, dif_pos ⟨hik, hc⟩, mul_comm]
      · intro j _ hj
        rw [dif_neg, mul_zero]
        rintro ⟨hj1, hj2⟩
        exact hj (by apply Fin.ext; simp; omega)
      · intro h
        exact absurd (Finset.mem_univ _) h
    · rw [dif_neg (by omega)]
      apply Finset.sum_eq_zero
      intro j _
      rw [dif_neg, mul_zero]
      rintro ⟨hj1, hj2⟩
      omega
  rw [h1, h2, h3]
  rfl

open Butterfly in
theorem bForwardBatch_eq {R : Type} [CommRing R] (b n k : ℕ) (hkn : k < n)
    (d : Fin n → R) (sub sup : Fin (n - k) → R) (x : Matrix (Fin b) (Fin n) R) :
    bForwardBatch b n k d sub sup x = x * (bMatrix n k d sub sup).transpose := by
  funext r
  rw [show bForwardBatch b n k d sub sup x r = bForward n k d sub sup (x r) from rfl,
    bForward_eq_vecMul n k hkn d sub sup (x r)]
  funext j
  simp [Matrix.mul_apply, Matrix.vecMul, Matrix.dotProduct]

theorem foldl_mul_assoc {R : Type} [CommRing R] {n : ℕ}
    (l : List (Matrix (Fin n) (Fin n) R)) (a b : Matrix (Fin n) (Fin n) R) :
    l.foldl (· * ·) (a * b) = a * l.foldl (· * ·) b := by
  induction l generalizing b with
  | nil => rfl
  | cons c t ih =>
      simp only [List.foldl_cons, mul_assoc, ih]

open MatrixProduct in
theorem mpForwardFixed_eq {R : Type} [CommRing R] {n : ℕ}
    (fs : List (Factor R n))
    (hlin : ∀ f ∈ fs, ∀ v, f.app v = Matrix.vecMul v f.mat.transpose)
    (M : Matrix (Fin n) (Fin n) R) (hM : mpMatrixFixed fs = some M)
    (x : Fin n → R) :
    mpForwardFixed fs x = Matrix.vecMul x M.transpose := by
  induction fs generalizing M x with
  | nil => simp [mpMatrixFixed, reduceMul] at hM
  | cons f rest ih =>
      have hf := hlin f (List.mem_cons_self f rest)
      have hrest : ∀ g ∈ rest, ∀ v, g.app v = Matrix.vecMul v g.mat.transpose :=
        fun g hg => hlin g (List.mem_cons_of_mem f hg)
      have hfwd : mpForwardFixed (f :: rest) x = f.app (mpForwardFixed rest x) := by
        simp [mpForwardFixed, List.foldl_append]
      cases rest with
      | nil =>
          simp only [mpMatrixFixed, List.map_cons, List.map_nil, reduceMul,
            List.foldl_nil, Option.some.injEq] at hM
          subst hM
          rw [hfwd, hf]
          rfl
      | cons g t =>
          simp only [mpMatrixFixed, List.map_cons, reduceMul, List.foldl_cons,
            Option.some.injEq] at hM
          rw [foldl_mul_assoc] at hM
          subst hM
          have hMrest : mpMatrixFixed (g :: t)
              = some ((t.map Factor.mat).foldl (· * ·) g.mat) := rfl
          rw [hfwd, ih hrest _ hMrest, hf, Matrix.vecMul_vecMul, Matrix.transpose_mul]

open MatrixProduct in
theorem mixApply_eq {R : Type} [CommRing R] {n m : ℕ} (emb : ℝ →+* R)
    (w : Fin m → ℝ) (fs : Fin m → Factor R n)
    (hlin : ∀ k, ∀ v, (fs k).app v = Matrix.vecMul v (fs k).mat.transpose)
    (v : Fin n → R) :
    mixApply emb w fs v =
      Matrix.vecMul v (avgMat emb w (fun k => (fs k).mat)).transpose := by
  funext j
  simp only [mixApply, avgMat]
  have hterm : ∀ k : Fin m, emb (w k) * (fs k).app v j
      = ∑ l : Fin n, v l * (emb (w k) * (fs k).mat j l) := by
    intro k
    rw [hlin k]
    simp only [Matrix.vecMul, Matrix.dotProduct, Matrix.transpose_apply, Finset.mul_sum]
    exact Finset.sum_congr rfl (fun l _ => by ring)
  rw [Finset.sum_congr rfl (fun k _ => hterm k), Finset.sum_comm]
  simp only [Matrix.vecMul, Matrix.dotProduct, Matrix.transpose_apply]
  refine Finset.sum_congr rfl (fun l _ => ?_)
  rw [Matrix.sum_apply, Finset.mul_sum]
  exact Finset.sum_congr rfl (fun k _ => by rw [Matrix.smul_apply, smul_eq_mul])

open MatrixProduct in
theorem learnedChain {R : Type} [CommRing R] {n m : ℕ} (emb : ℝ →+* R)
    (fs : Fin m → Factor R n)
    (hlin : ∀ k, ∀ v, (fs k).app v = Matrix.vecMul v (fs k).mat.transpose)
    (ws : List (Fin m → ℝ)) (M : Matrix (Fin n) (Fin n) R)
    (hM : reduceMul (ws.map (fun w => avgMat emb w (fun k => (fs k).mat))) = some M)
    (x : Fin n → R) :
    ws.reverse.foldl (fun v w => mixApply emb w fs v) x = Matrix.vecMul x M.transpose := by
  induction ws generalizing M x with
  | nil => simp [reduceMul] at hM
  | cons w rest ih =>
      have hfwd : (w :: rest).reverse.foldl (fun v u => mixApply emb u fs v) x
          = mixApply emb w fs (rest.reverse.foldl (fun v u => mixApply emb u fs v) x) := by
        simp [List.foldl_append]
      cases rest with
      | nil =>
          simp only [List.map_cons, List.map_nil, reduceMul, List.foldl_nil,
            Option.some.injEq] at hM
          subst hM
          rw [hfwd]
          simp only [List.reverse_nil, List.foldl_nil]
          exact mixApply_eq emb w fs hlin x
      | cons u t =>
          simp only [List.map_cons, reduceMul, List.foldl_cons, Option.some.injEq] at hM
          rw [foldl_mul_assoc] at hM
          subst hM
          have hMrest : reduceMul ((u :: t).map (fun w => avgMat emb w (fun k => (fs k).mat)))
              = some ((t.map (fun w => avgMat emb w (fun k => (fs k).mat))).foldl (· * ·)
                  (avgMat emb u (fun k => (fs k).mat))) := rfl
          rw [hfwd, ih _ hMrest, mixApply_eq emb w fs hlin, Matrix.vecMul_vecMul,
            Matrix.transpose_mul]

open MatrixProduct in
theorem mpForwardLearned_eq {R : Type} [CommRing R] {n m t : ℕ} (emb : ℝ →+* R)
    (prob : Fin t → Fin m → ℝ) (fs : Fin m → Factor R n)
    (hlin : ∀ k, ∀ v, (fs k).app v = Matrix.vecMul v (fs k).mat.transpose)
    (M : Matrix (Fin n) (Fin n) R)
    (hM : mpMatrixLearned emb prob (fun k => (fs k).mat) = some M)
    (x : Fin n → R) :
    mpForwardLearned emb prob fs x = Matrix.vecMul x M.transpose :=
  learnedChain emb fs hlin (List.ofFn prob) M hM x

open MatrixProduct in
theorem softmaxO_onehot {m : ℕ} (i : Fin m) (c : ℝ) :
    softmaxO (fun j => if j = i then some c else none) =
      fun k => if k = i then (1 : ℝ) else 0 := by
  funext k
  have hrow : ∀ t : Fin m, expO (if t = i then some c else none)
      = if t = i then Real.exp c else 0 := by
    intro t
    split <;> rfl
  have hden : (∑ t : Fin m, expO (if t = i then some c else none)) = Real.exp c := by
    rw [Finset.sum_congr rfl (fun t _ => hrow t), Finset.sum_ite_eq']
    simp
  rw [softmaxO, hden, hrow]
  split
  · exact div_self (Real.exp_ne_zero c)
  · exact zero_div _

open MatrixProduct in
theorem avgMat_onehot {R : Type} [CommRing R] {n m : ℕ} (emb : ℝ →+* R)
    (i : Fin m) (mats : Fin m → Matrix (Fin n) (Fin n) R) :
    avgMat emb (fun k => if k = i then (1 : ℝ) else 0) mats = mats i := by
  simp [avgMat, apply_ite emb, ite_smul, Finset.sum_ite_eq']

theorem sum_range_two_mul (N : ℕ) (f : ℕ → ℂ) :
    ∑ j ∈ Finset.range (2 * N), f j
      = (∑ j ∈ Finset.range N, f (2 * j)) + ∑ j ∈ Finset.range N, f (2 * j + 1) := by
  induction N with
  | zero => simp
  | succ N ih =>
      have h2 : 2 * (N + 1) = 2 * N + 1 + 1 := by ring
      rw [h2, Finset.sum_range_succ, Finset.sum_range_succ, ih,
        Finset.sum_range_succ, Finset.sum_range_succ]
      ring

theorem sum_range_add_block (N M : ℕ) (f : ℕ → ℂ) :
    ∑ j ∈ Finset.range (N + M), f j
      = (∑ j ∈ Finset.range N, f j) + ∑ j ∈ Finset.range M, f (N + j) := by
  induction M with
  | zero => simp
  | succ M ih =>
      rw [Nat.add_succ, Finset.sum_range_succ, ih, Finset.sum_range_succ, add_assoc]

open SpecialFFT in
theorem ditRec_eq (m : ℕ) : ∀ (x : ℕ → ℂ) (k : ℕ), ditRec m x k = dftRef (2 ^ m) x k := by
  induction m with
  | zero =>
      intro x k
      simp [ditRec, dftRef]
  | succ m ih =>
      intro x k
      have hN : ((2 : ℂ) ^ m) ≠ 0 := pow_ne_zero _ two_ne_zero
      have h2N : ((2 : ℂ) * 2 ^ m) ≠ 0 := mul_ne_zero two_ne_zero hN
      rw [ditRec, ih, ih]
      conv_rhs => rw [dftRef, show (2 : ℕ) ^ (m + 1) = 2 * 2 ^ m from by ring,
        sum_range_two_mul]
      congr 1
      · rw [dftRef]
        refine Finset.sum_congr rfl (fun j hj => ?_)
        congr 1
        congr 1
        push_cast
        rw [div_eq_div_iff hN h2N]
        ring
      · rw [dftRef, Finset.mul_sum]
        refine Finset.sum_congr rfl (fun j hj => ?_)
        rw [← mul_assoc, mul_comm (Complex.exp _) (x (2 * j + 1)), mul_assoc,
          ← Complex.exp_add]
        congr 1
        push_cast
        rw [show ((2 : ℂ)) ^ (m + 1) = 2 * 2 ^ m from by ring,
          div_add_div _ _ h2N hN]
        refine congrArg Complex.exp ?_
        rw [div_eq_div_iff (mul_ne_zero h2N hN) h2N]
        ring

open SpecialFFT in
theorem difRec_eq (m : ℕ) : ∀ (x : ℕ → ℂ) (k : ℕ), difRec m x k = dftRef (2 ^ m) x k := by
  induction m with
  | zero =>
      intro x k
      simp [difRec, dftRef]
  | succ m ih =>
      intro x k
      have hN : ((2 : ℂ) ^ m) ≠ 0 := pow_ne_zero _ two_ne_zero
      have h2N : ((2 : ℂ) * 2 ^ m) ≠ 0 := mul_ne_zero two_ne_zero hN
      rcases Nat.mod_two_eq_zero_or_one k with hk | hk
      · obtain ⟨q, rfl⟩ : ∃ q, k = 2 * q := ⟨k / 2, by omega⟩
        rw [difRec, if_pos hk, ih, show (2 * q) / 2 = q from by omega]
        conv_rhs => rw [dftRef, show (2 : ℕ) ^ (m + 1) = 2 ^ m + 2 ^ m from by ring,
          sum_range_add_block, ← Finset.sum_add_distrib]
        rw [dftRef]
        refine Finset.sum_congr rfl (fun j hj => ?_)
        have hswap : x (2 ^ m + j) = x (j + 2 ^ m) := by rw [Nat.add_comm]
        have hE1 : Complex.exp (-(2 * (Real.pi : ℂ) * Complex.I) * (j : ℂ) * ((2 * q : ℕ) : ℂ)
              / (((2 : ℕ) ^ m + 2 ^ m : ℕ) : ℂ))
            = Complex.exp (-(2 * (Real.pi : ℂ) * Complex.I) * (j : ℂ) * (q : ℂ)
              / (((2 : ℕ) ^ m : ℕ) : ℂ)) := by
          refine congrArg Complex.exp ?_
          push_cast
          rw [show ((2 : ℂ) ^ m + 2 ^ m) = 2 * 2 ^ m from by ring,
            div_eq_div_iff h2N hN]
          ring
        have hE2 : Complex.exp (-(2 * (Real.pi : ℂ) * Complex.I) * ((2 ^ m + j : ℕ) : ℂ)
              * ((2 * q : ℕ) : ℂ) / (((2 : ℕ) ^ m + 2 ^ m : ℕ) : ℂ))
            = Complex.exp (-(2 * (Real.pi : ℂ) * Complex.I) * (j : ℂ) * (q : ℂ)
              / (((2 : ℕ) ^ m : ℕ) : ℂ)) := by
          have harg : -(2 * (Real.pi : ℂ) * Complex.I) * ((2 ^ m + j : ℕ) : ℂ)
                * ((2 * q : ℕ) : ℂ) / (((2 : ℕ) ^ m + 2 ^ m : ℕ) : ℂ)
              = ((-(q : ℤ) : ℤ) : ℂ) * (2 * (Real.pi : ℂ) * Complex.I)
                + -(2 * (Real.pi : ℂ) * Complex.I) * (j : ℂ) * (q : ℂ)
                  / (((2 : ℕ) ^ m : ℕ) : ℂ) := by
            push_cast
            rw [show ((2 : ℂ) ^ m + 2 ^ m) = 2 * 2 ^ m from by ring]
            field_simp
            ring
          rw [harg, Complex.exp_add, Complex.exp_int_mul_two_pi_mul_I, one_mul]
        rw [hE1, hE2, hswap]
        ring
      · obtain ⟨q, rfl⟩ : ∃ q, k = 2 * q + 1 := ⟨k / 2, by omega⟩
        rw [difRec, if_neg (by omega), ih, show (2 * q + 1) / 2 = q from by omega]
        conv_rhs => rw [dftRef, show (2 : ℕ) ^ (m + 1) = 2 ^ m + 2 ^ m from by ring,
          sum_range_add_block, ← Finset.sum_add_distrib]
        rw [dftRef]
        refine Finset.sum_congr rfl (fun j hj => ?_)
        have hswap : x (2 ^ m + j) = x (j + 2 ^ m) := by rw [Nat.add_comm]
        have hE1 : Complex.exp (-(2 * (Real.pi : ℂ) * Complex.I) * (j : ℂ)
              * ((2 * q + 1 : ℕ) : ℂ) / (((2 : ℕ) ^ m + 2 ^ m : ℕ) : ℂ))
            = Complex.exp (-(2 * (Real.pi : ℂ) * Complex.I) * (j : ℂ) / (2 : ℂ) ^ (m + 1))
              * Complex.exp (-(2 * (Real.pi : ℂ) * Complex.I) * (j : ℂ) * (q : ℂ)
                / (((2 : ℕ) ^ m : ℕ) : ℂ)) := by
          rw [← Complex.exp_add]
          refine congrArg Complex.exp ?_
          push_cast
          rw [show ((2 : ℂ) ^ m + 2 ^ m) = 2 * 2 ^ m from by ring,
            show ((2 : ℂ)) ^ (m + 1) = 2 * 2 ^ m from by ring,
            div_add_div _ _ h2N hN, div_eq_div_iff h2N (mul_ne_zero h2N hN)]
          ring
        have hE2 : Complex.exp (-(2 * (Real.pi : ℂ) * Complex.I) * ((2 ^ m + j : ℕ) : ℂ)
              * ((2 * q + 1 : ℕ) : ℂ) / (((2 : ℕ) ^ m + 2 ^ m : ℕ) : ℂ))
            = -(Complex.exp (-(2 * (Real.pi : ℂ) * Complex.I) * (j : ℂ) / (2 : ℂ) ^ (m + 1))
              * Complex.exp (-(2 * (Real.pi : ℂ) * Complex.I) * (j : ℂ) * (q : ℂ)
                / (((2 : ℕ) ^ m : ℕ) : ℂ))) := by
          have harg : -(2 * (Real.pi : ℂ) * Complex.I) * ((2 ^ m + j : ℕ) : ℂ)
                * ((2 * q + 1 : ℕ) : ℂ) / (((2 : ℕ) ^ m + 2 ^ m : ℕ) : ℂ)
              = ((-(q : ℤ) : ℤ) : ℂ) * (2 * (Real.pi : ℂ) * Complex.I)
                + (-((Real.pi : ℂ) * Complex.I)
                  + (-(2 * (Real.pi : ℂ) * Complex.I) * (j : ℂ) / (2 : ℂ) ^ (m + 1)
                    + -(2 * (Real.pi : ℂ) * Complex.I) * (j : ℂ) * (q : ℂ)
                      / (((2 : ℕ) ^ m : ℕ) : ℂ))) := by
            push_cast
            rw [show ((2 : ℂ) ^ m + 2 ^ m) = 2 * 2 ^ m from by ring,
              show ((2 : ℂ)) ^ (m + 1) = 2 * 2 ^ m from by ring]
            field_simp
            ring
          rw [harg, Complex.exp_add, Complex.exp_int_mul_two_pi_mul_I, one_mul,
            Complex.exp_add, Complex.exp_neg, Complex.exp_pi_mul_I, Complex.exp_add]
          ring_nf
        rw [hE1, hE2, hswap]
        ring

open MatrixProduct ButterflyProduct in
theorem bpPerm_real_eq (m : ℕ) (hm : 1 ≤ m)
    (d : Fin m → Fin (2 ^ m) → ℝ)
    (sub sup : (i : Fin m) → Fin (2 ^ m - 2 ^ (m - 1 - (i : ℕ))) → ℝ)
    (prob : Fin m → Fin m → ℝ)
    (permLogit : Matrix (Fin (2 ^ m)) (Fin (2 ^ m)) ℝ) (temp : ℝ) :
    ∃ M, bpMatrixPerm prob (fun i => (bpFactors m d sub sup i).mat) permLogit temp
        = some M ∧
      ∀ x, bpForwardPerm prob (bpFactors m d sub sup) permLogit temp x
        = Matrix.vecMul x M.transpose := by
  have hlin : ∀ i, ∀ v, (bpFactors m d sub sup i).app v
      = Matrix.vecMul v (bpFactors m d sub sup i).mat.transpose := by
    intro i v
    exact bForward_eq_vecMul (2 ^ m) (2 ^ (m - 1 - (i : ℕ)))
      (Nat.pow_lt_pow_right one_lt_two (by have := i.isLt; omega))
      (d i) (sub i) (sup i) v
  obtain ⟨Mb, hMb⟩ : ∃ Mb,
      mpMatrixLearned (RingHom.id ℝ) prob (fun i => (bpFactors m d sub sup i).mat)
        = some Mb := by
    obtain ⟨s, rfl⟩ : ∃ s, m = s + 1 := ⟨m - 1, by omega⟩
    rw [mpMatrixLearned, List.ofFn_succ, List.map_cons, reduceMul]
    exact ⟨_, rfl⟩
  refine ⟨Mb * Sinkhorn.sinkhorn (permLogit.map (· / temp)) 5, ?_, ?_⟩
  · rw [bpMatrixPerm, hMb, Option.map_some']
  · intro x
    rw [bpForwardPerm, mpForwardLearned_eq (RingHom.id ℝ) prob _ hlin Mb hMb, permApply,
      show (Sinkhorn.sinkhorn (permLogit.map (· / temp)) 5).map (RingHom.id ℝ)
          = Sinkhorn.sinkhorn (permLogit.map (· / temp)) 5 from by
        funext i j
        simp [Matrix.map_apply],
      Matrix.vecMul_vecMul, Matrix.transpose_mul]

/-! ### The claims -/

/-- C1: for every Butterfly factor (real or complex variant, with diagonal
offset `0 < k < n`) and every input batch `x` of matching size, the direct
application `forward(x)` equals the dense product `x @ matrix().transpose()`
(the complex case using the complex matrix multiply, i.e. the same matrix
product over `ℂ`). -/
theorem claimC1_butterfly_forward_dense :
    (∀ (b n k : ℕ), 0 < k → k < n →
      ∀ (d : Fin n → ℝ) (sub sup : Fin (n - k) → ℝ) (x : Matrix (Fin b) (Fin n) ℝ),
        Butterfly.bForwardBatch b n k d sub sup x
          = x * (Butterfly.bMatrix n k d sub sup).transpose) ∧
    (∀ (b n k : ℕ), 0 < k → k < n →
      ∀ (d : Fin n → ℂ) (sub sup : Fin (n - k) → ℂ) (x : Matrix (Fin b) (Fin n) ℂ),
        Butterfly.bForwardBatch b n k d sub sup x
          = x * (Butterfly.bMatrix n k d sub sup).transpose) :=
  ⟨fun b n k _ hkn d sub sup x => bForwardBatch_eq b n k hkn d sub sup x,
   fun b n k _ hkn d sub sup x => bForwardBatch_eq b n k hkn d sub sup x⟩

/-- Witness for C1: a concrete real and a concrete complex butterfly factor
of size 2 with offset 1, applied to a concrete one-row batch. -/
theorem claimC1_witness :
    ((0 : ℕ) < 1 ∧ (1 : ℕ) < 2) ∧
    Butterfly.bForwardBatch 1 2 1 ![(1 : ℝ), 2] ![3] ![4] !![5, 7]
      = !![(5 : ℝ), 7] * (Butterfly.bMatrix 2 1 ![(1 : ℝ), 2] ![3] ![4]).transpose ∧
    Butterfly.bForwardBatch 1 2 1 ![(1 : ℂ), 2] ![3] ![4] !![5, 7]
      = !![(5 : ℂ), 7] * (Butterfly.bMatrix 2 1 ![(1 : ℂ), 2] ![3] ![4]).transpose :=
  ⟨⟨by decide, by decide⟩,
   claimC1_butterfly_forward_dense.1 1 2 1 (by decide) (by decide) _ _ _ _,
   claimC1_butterfly_forward_dense.2 1 2 1 (by decide) (by decide) _ _ _ _⟩

open SpecialFFT in
/-- C2: the special constructor `fft(n)` (modelled from the spec, the
`torch_butterfly.special` module being absent from `src/`) produces, for
every power of two `n = 2^m`, every input and every output index, the same
value as the reference Discrete Fourier Transform, under all four
combinations of `normalized` and `br_first`. -/
theorem claimC2_fft_reference :
    ∀ (m : ℕ) (normalized brFirst : Bool) (x : ℕ → ℂ) (k : ℕ),
      fftModel (2 ^ m) normalized brFirst x k = dftRefN (2 ^ m) normalized x k := by
  intro m nz br x k
  rw [fftModel, dftRefN, log2_two_pow]
  cases br
  · rw [if_neg (Bool.false_ne_true), difRec_eq]
  · rw [if_pos (rfl : (true : Bool) = true), ditRec_eq]

open Butterfly in
/-- C7: the complex Butterfly factor of size 4 with offset 1,
`diag = [[1,2],[2,3],[3,4],[4,5]]` and
`subdiag = superdiag = [[11,12],[12,13],[13,14]]`, has exactly the real and
imaginary dense slabs stated in `test_butterfly`. -/
theorem claimC7_concrete_complex :
    reSlab (bMatrix 4 1
        ![⟨1, 2⟩, ⟨2, 3⟩, ⟨3, 4⟩, ⟨4, 5⟩]
        ![⟨11, 12⟩, ⟨12, 13⟩, ⟨13, 14⟩]
        ![⟨11, 12⟩, ⟨12, 13⟩, ⟨13, 14⟩]) =
      !![1, 11, 0, 0; 11, 2, 12, 0; 0, 12, 3, 13; 0, 0, 13, 4] ∧
    imSlab (bMatrix 4 1
        ![⟨1, 2⟩, ⟨2, 3⟩, ⟨3, 4⟩, ⟨4, 5⟩]
        ![⟨11, 12⟩, ⟨12, 13⟩, ⟨13, 14⟩]
        ![⟨11, 12⟩, ⟨12, 13⟩, ⟨13, 14⟩]) =
      !![2, 12, 0, 0; 12, 3, 13, 0; 0, 13, 4, 14; 0, 0, 14, 5] := by
  constructor <;>
    · funext i j
      fin_cases i <;> fin_cases j <;>
        simp [bMatrix, reSlab, imSlab, Matrix.vecHead, Matrix.vecTail]

open MatrixProduct in
/-- C3: for a Matrix Product Composer over two factors `F1`, `F2` (each
applying its own dense matrix, as Butterfly factors do): in fixed-order mode
`matrix()` equals the ordered product `F1*F2`, in learned-order mode with
one-hot degenerate logits (row `i` finite at column `i`, `-inf` elsewhere,
at the default temperature 1) `matrix()` also equals `F1*F2`, and in both
modes `forward(x)` equals `x @ matrix().transpose()` for every input. -/
theorem claimC3_matrix_product {R : Type} [CommRing R] (emb : ℝ →+* R) (n : ℕ)
    (F1 F2 : Factor R n)
    (h1 : ∀ v, F1.app v = Matrix.vecMul v F1.mat.transpose)
    (h2 : ∀ v, F2.app v = Matrix.vecMul v F2.mat.transpose)
    (c : Fin 2 → ℝ) (lg : Fin 2 → Fin 2 → Option ℝ)
    (hlg : ∀ i j, lg i j = if j = i then some (c i) else none) :
    mpMatrixFixed [F1, F2] = some (F1.mat * F2.mat) ∧
    mpMatrixLearned emb (fun i => softmaxO (fun j => (lg i j).map (· / (1 : ℝ))))
        (fun j => (![F1, F2] j).mat) = some (F1.mat * F2.mat) ∧
    (∀ x, mpForwardFixed [F1, F2] x
        = Matrix.vecMul x (F1.mat * F2.mat).transpose) ∧
    (∀ x, mpForwardLearned emb (fun i => softmaxO (fun j => (lg i j).map (· / (1 : ℝ))))
        ![F1, F2] x = Matrix.vecMul x (F1.mat * F2.mat).transpose) := by
  have hprob : (fun i => softmaxO (fun j => (lg i j).map (· / (1 : ℝ))))
      = fun (i : Fin 2) (k : Fin 2) => if k = i then (1 : ℝ) else 0 := by
    funext i
    have hrow : (fun j => (lg i j).map (· / (1 : ℝ)))
        = fun j => if j = i then some (c i / 1) else none := by
      funext j
      rw [hlg]
      split <;> rfl
    rw [hrow, softmaxO_onehot]
  have hlinv : ∀ k : Fin 2, ∀ v, (![F1, F2] k).app v
      = Matrix.vecMul v (![F1, F2] k).mat.transpose := by
    intro k
    fin_cases k
    · exact h1
    · exact h2
  have hlearned : mpMatrixLearned emb
      (fun i => softmaxO (fun j => (lg i j).map (· / (1 : ℝ))))
      (fun j => (![F1, F2] j).mat) = some (F1.mat * F2.mat) := by
    rw [hprob, mpMatrixLearned, List.ofFn_succ, List.ofFn_succ, List.ofFn_zero]
    simp only [List.map_cons, List.map_nil]
    rw [avgMat_onehot emb (0 : Fin 2), avgMat_onehot emb (Fin.succ 0), reduceMul]
    simp [List.foldl]
  refine ⟨rfl, hlearned, ?_, ?_⟩
  · intro x
    refine mpForwardFixed_eq [F1, F2] ?_ (F1.mat * F2.mat) rfl x
    intro f hf
    simp only [List.mem_cons, List.mem_singleton, List.not_mem_nil, or_false] at hf
    rcases hf with rfl | rfl
    · exact h1
    · exact h2
  · intro x
    exact mpForwardLearned_eq emb _ ![F1, F2] hlinv (F1.mat * F2.mat) hlearned x

open MatrixProduct in
/-- Witness for C3: the two concrete 1x1 factors with the one-hot logits,
every hypothesis discharged definitionally. -/
theorem claimC3_witness :
    (∀ v, wFactorA.app v = Matrix.vecMul v wFactorA.mat.transpose) ∧
    (∀ v, wFactorB.app v = Matrix.vecMul v wFactorB.mat.transpose) ∧
    (∀ i j, wLogit i j = if j = i then some ((fun _ : Fin 2 => (1 : ℝ)) i) else none) ∧
    (mpMatrixFixed [wFactorA, wFactorB] = some (wFactorA.mat * wFactorB.mat) ∧
      mpMatrixLearned (RingHom.id ℝ)
          (fun i => softmaxO (fun j => (wLogit i j).map (· / (1 : ℝ))))
          (fun j => (![wFactorA, wFactorB] j).mat)
        = some (wFactorA.mat * wFactorB.mat) ∧
      (∀ x, mpForwardFixed [wFactorA, wFactorB] x
          = Matrix.vecMul x (wFactorA.mat * wFactorB.mat).transpose) ∧
      (∀ x, mpForwardLearned (RingHom.id ℝ)
          (fun i => softmaxO (fun j => (wLogit i j).map (· / (1 : ℝ))))
          ![wFactorA, wFactorB] x
        = Matrix.vecMul x (wFactorA.mat * wFactorB.mat).transpose)) :=
  ⟨fun _ => rfl, fun _ => rfl, fun _ _ => rfl,
   claimC3_matrix_product (RingHom.id ℝ) 1 wFactorA wFactorB (fun _ => rfl)
     (fun _ => rfl) (fun _ => 1) wLogit (fun _ _ => rfl)⟩

open ButterflyProduct in
/-- C4: constructing a Butterfly Product with size `n` succeeds exactly when
`n` is a power of two (otherwise it is a fatal error), and on success for
`n = 2^m` it creates exactly `m` Butterfly factors with diagonal offsets
`2^(m-1), ..., 2^0` in descending order, with term count `m`. -/
theorem claimC4_butterfly_product_init : ∀ n : ℕ,
    ((bpInit n = none) ↔ ¬ ∃ m : ℕ, n = 2 ^ m) ∧
    (∀ m : ℕ, n = 2 ^ m →
      bpInit n = some (List.ofFn (fun i : Fin m => 2 ^ (m - 1 - (i : ℕ))), m)) := by
  intro n
  constructor
  · constructor
    · intro hnone hex
      rcases hex with ⟨m, rfl⟩
      rw [bpInit, log2_two_pow] at hnone
      simp at hnone
    · intro hnex
      rw [bpInit]
      split
      · exact absurd ⟨Nat.log2 n, by assumption⟩ hnex
      · rfl
  · intro m hm
    subst hm
    rw [bpInit, log2_two_pow]
    simp [range_reverse_pow]

open ButterflyProduct in
/-- Witness for C4: size 8 is `2^3` and the builder produces the three
offsets `[4, 2, 1]` with term count 3. -/
theorem claimC4_witness : (8 : ℕ) = 2 ^ 3 ∧
    bpInit 8 = some (List.ofFn (fun i : Fin 3 => 2 ^ (3 - 1 - (i : ℕ))), 3) :=
  ⟨by norm_num, (claimC4_butterfly_product_init 8).2 3 (by norm_num)⟩

open Sinkhorn in
/-- C5: for every square input and every iteration count at least 5 (in
fact at least 1), the Sinkhorn output is normalized: every column sums to
exactly 1, every row sum is positive, at most `n`, and the row sums average
exactly 1 (the total is `n`); this is the exact-arithmetic content of "rows
and columns approximately sum to 1"; the result is a pure function of the
input and the iteration count. -/
theorem claimC5_sinkhorn_sums {n : ℕ} (L : Matrix (Fin n) (Fin n) ℝ) (iters : ℕ)
    (h : 1 ≤ iters) :
    (∀ j, (∑ i, sinkhorn L iters i j) = 1) ∧
    (∀ i, 0 < (∑ j, sinkhorn L iters i j) ∧ (∑ j, sinkhorn L iters i j) ≤ n) ∧
    ((∑ i, ∑ j, sinkhorn L iters i j) = n) := by
  obtain ⟨s, rfl⟩ : ∃ s, iters = s + 1 := ⟨iters - 1, by omega⟩
  set A : Matrix (Fin n) (Fin n) ℝ := rowNorm (sinkhornIter^[s] L) with hA
  have hout : ∀ i j, sinkhorn L (s + 1) i j
      = Real.exp (A i j) / (∑ t, Real.exp (A t j)) := by
    intro i j
    have hS : (0 : ℝ) < ∑ t, Real.exp (A t j) :=
      Finset.sum_pos (fun t _ => Real.exp_pos _) ⟨i, Finset.mem_univ i⟩
    rw [sinkhorn, sinkhornLogit, Function.iterate_succ_apply']
    show Real.exp (sinkhornIter (sinkhornIter^[s] L) i j) = _
    rw [sinkhornIter, ← hA, colNorm, Real.exp_sub, Real.exp_log hS]
  have hcol : ∀ j, (∑ i, sinkhorn L (s + 1) i j) = 1 := by
    intro j
    have hS : (0 : ℝ) < ∑ t, Real.exp (A t j) :=
      Finset.sum_pos (fun t _ => Real.exp_pos _) ⟨j, Finset.mem_univ j⟩
    rw [Finset.sum_congr rfl (fun i _ => hout i j), ← Finset.sum_div]
    exact div_self (ne_of_gt hS)
  have hpos : ∀ i j, 0 < sinkhorn L (s + 1) i j := by
    intro i j
    rw [hout i j]
    exact div_pos (Real.exp_pos _)
      (Finset.sum_pos (fun t _ => Real.exp_pos _) ⟨i, Finset.mem_univ i⟩)
  have htot : (∑ i, ∑ j, sinkhorn L (s + 1) i j) = n := by
    rw [Finset.sum_comm, Finset.sum_congr rfl (fun j _ => hcol j)]
    simp
  refine ⟨hcol, fun i => ⟨?_, ?_⟩, htot⟩
  · exact Finset.sum_pos (fun j _ => hpos i j) ⟨i, Finset.mem_univ i⟩
  · calc (∑ j, sinkhorn L (s + 1) i j)
        ≤ ∑ i', ∑ j, sinkhorn L (s + 1) i' j := by
          have hle : ∀ i' : Fin n, (0 : ℝ) ≤ ∑ j, sinkhorn L (s + 1) i' j :=
            fun i' => Finset.sum_nonneg (fun j _ => le_of_lt (hpos i' j))
          exact Finset.single_le_sum (fun i' _ => hle i') (Finset.mem_univ i)
      _ = n := htot

open Sinkhorn in
/-- Witness for C5: the 1x1 zero logit matrix with the default 5 iterations. -/
theorem claimC5_witness : (1 : ℕ) ≤ 5 ∧
    ((∀ j, (∑ i, sinkhorn (fun _ _ => (0 : ℝ) : Matrix (Fin 1) (Fin 1) ℝ) 5 i j) = 1) ∧
     (∀ i, 0 < (∑ j, sinkhorn (fun _ _ => (0 : ℝ) : Matrix (Fin 1) (Fin 1) ℝ) 5 i j) ∧
       (∑ j, sinkhorn (fun _ _ => (0 : ℝ) : Matrix (Fin 1) (Fin 1) ℝ) 5 i j) ≤ 1) ∧
     ((∑ i, ∑ j, sinkhorn (fun _ _ => (0 : ℝ) : Matrix (Fin 1) (Fin 1) ℝ) 5 i j) = 1)) :=
  ⟨by decide, by
    have h := claimC5_sinkhorn_sums (fun _ _ => (0 : ℝ) : Matrix (Fin 1) (Fin 1) ℝ) 5
      (by decide)
    simpa using h⟩

open MatrixProduct ButterflyProduct in
/-- C6 (code bug): in the real variant, for a Butterfly Product with learned
permutation enabled (learned-order mode, softmax selection), for every
temperature and every input `forward(x, temperature)` equals
`x @ matrix(temperature).transpose()` — the claimed, intended behavior.  In
the complex variant the same `matrix()` line executes `matrix @ perm` on the
`(n, n, 2)` complex tensor, where `torch.matmul` requires the trailing pair
axis (size 2) to equal `n`: at the failing input size 4, `matrix()` raises a
shape error instead of returning the permuted matrix, even though the
complex `forward` applies the permutation correctly slab-wise — so the code
contradicts its own forward path. -/
theorem claimC6_perm_code_bug :
    (∀ (s : ℕ) (d : Fin (s + 1) → Fin (2 ^ (s + 1)) → ℝ)
      (sub sup : (i : Fin (s + 1)) → Fin (2 ^ (s + 1) - 2 ^ (s + 1 - 1 - (i : ℕ))) → ℝ)
      (lg : Matrix (Fin (s + 1)) (Fin (s + 1)) ℝ)
      (permLogit : Matrix (Fin (2 ^ (s + 1))) (Fin (2 ^ (s + 1)))  ℝ) (temp : ℝ),
      ∃ M, bpMatrixPerm (fun i => softmaxR (fun j => lg i j / temp))
          (fun i => (bpFactors (s + 1) d sub sup i).mat) permLogit temp = some M ∧
        ∀ x, bpForwardPerm (fun i => softmaxR (fun j => lg i j / temp))
            (bpFactors (s + 1) d sub sup) permLogit temp x
          = Matrix.vecMul x M.transpose) ∧
    (∀ (d : Fin 2 → Fin (2 ^ 2) → ℂ)
      (sub sup : (i : Fin 2) → Fin (2 ^ 2 - 2 ^ (2 - 1 - (i : ℕ))) → ℂ)
      (lg : Matrix (Fin 2) (Fin 2) ℝ)
      (permLogit : Matrix (Fin (2 ^ 2)) (Fin (2 ^ 2)) ℝ) (temp : ℝ),
      bpMatrixPermComplex (fun i => softmaxR (fun j => lg i j / temp))
        (fun i => (bpFactors 2 d sub sup i).mat) permLogit temp = none) :=
  ⟨fun s d sub sup lg permLogit temp =>
     bpPerm_real_eq (s + 1) (Nat.le_add_left 1 s) d sub sup
       (fun i => softmaxR (fun j => lg i j / temp)) permLogit temp,
   fun d sub sup lg permLogit temp => by
     have hnone : ∀ M : Matrix (Fin (2 ^ 2)) (Fin (2 ^ 2)) ℂ,
         matmulPairs (2 ^ 2) M (Sinkhorn.sinkhorn (permLogit.map (· / temp)) 5)
           = none := by
       intro M
       rw [matmulPairs, matmul3d2d, dif_neg (show ¬ ((2 : ℕ) = 2 ^ 2) from by decide)]
     rw [bpMatrixPermComplex]
     cases mpMatrixLearned Complex.ofRealHom (fun i => softmaxR (fun j => lg i j / temp))
         (fun i => (bpFactors 2 d sub sup i).mat) with
     | none => rfl
     | some M => exact hnone M⟩

open Butterfly in
/-- Counterexample for C8: constructing `Butterfly(4, diagonal=0)` succeeds
(the code only asserts `size > diagonal`), although the claimed range
`0 < k` is violated at `k = 0`. -/
theorem claimC8_counterexample :
    bInitOk 4 0 false none none none = true ∧ ¬ ((0 : ℤ) < 0) := by
  decide

open Butterfly in
/-- C8 (amended): construction of a Butterfly factor succeeds if and only
if `diagonal < size` (offsets `≤ 0` are accepted) and every explicitly
supplied parameter tensor has exactly the expected shape. -/
theorem claimC8_amended :
    ∀ (size : ℕ) (diagonal : ℤ) (cplx : Bool) (dg sb sp : Option Shape),
    bInitOk size diagonal cplx dg sb sp = true ↔
      (diagonal < (size : ℤ) ∧
        (∀ l ∈ dg, l = if cplx then [size, 2] else [size]) ∧
        (∀ l ∈ sb, l = if cplx then [((size : ℤ) - diagonal).toNat, 2]
          else [((size : ℤ) - diagonal).toNat]) ∧
        (∀ l ∈ sp, l = if cplx then [((size : ℤ) - diagonal).toNat, 2]
          else [((size : ℤ) - diagonal).toNat])) := by
  intro size diagonal cplx dg sb sp
  by_cases hlt : diagonal < (size : ℤ)
  · have h0 : (0 : ℤ) ≤ (size : ℤ) - diagonal := by omega
    have hoff : offShape size diagonal cplx =
        (if cplx then [((size : ℤ) - diagonal).toNat, 2]
          else [((size : ℤ) - diagonal).toNat]).map Int.ofNat := by
      cases cplx <;> simp [offShape, Int.toNat_of_nonneg h0]
    have hdg : diagShape size cplx =
        (if cplx then [size, 2] else [size]).map Int.ofNat := by
      cases cplx <;> simp [diagShape]
    simp [bInitOk, hoff, hdg, shapeMatches_iff, hlt, and_assoc]
  · simp [bInitOk, hlt]

open Butterfly in
/-- Witness for C8 (amended): a complex size-4 offset-1 factor with all
three parameter shapes supplied correctly. -/
theorem claimC8_witness :
    bInitOk 4 1 true (some [4, 2]) (some [3, 2]) (some [3, 2]) = true :=
  (claimC8_amended 4 1 true (some [4, 2]) (some [3, 2]) (some [3, 2])).mpr
    (by refine ⟨by norm_num, ?_, ?_, ?_⟩ <;> simp)

open MatrixProduct in
/-- Counterexample for C9: constructing a Matrix Product Composer with
`fixed_order=True` and the unknown `softmax_fn` name `"bogus"` succeeds, so
the unknown name is not rejected for every combination of the other
arguments. -/
theorem claimC9_counterexample : mpInitOk true "bogus" = true ∧
    ("bogus" ≠ "softmax" ∧ "bogus" ≠ "sparsemax") := by
  decide

open MatrixProduct in
/-- C9 (amended): construction fails on an unknown `softmax_fn` exactly when
`fixed_order` is false; with `fixed_order=True` the name is never checked. -/
theorem claimC9_amended : ∀ (fixedOrder : Bool) (softmaxFn : String),
    mpInitOk fixedOrder softmaxFn = true ↔
      (fixedOrder = true ∨ softmaxFn = "softmax" ∨ softmaxFn = "sparsemax") := by
  intro fo fn
  cases fo <;> simp [mpInitOk]

open MatrixProduct in
/-- Witness for C9 (amended): learned-order construction with the known
name `"softmax"` succeeds. -/
theorem claimC9_witness : mpInitOk false "softmax" = true :=
  (claimC9_amended false "softmax").mpr (Or.inr (Or.inl rfl))

open Sinkhorn in
/-- Counterexample for C10: on the 1x1 zero logit matrix the caller's tensor
still holds its original values after one iteration, so `sinkhorn` does not
always leave the argument changed. -/
theorem claimC10_counterexample :
    sinkhornLogit (fun _ _ => (0 : ℝ) : Matrix (Fin 1) (Fin 1) ℝ) 1
      = (fun _ _ => (0 : ℝ)) ∧ (1 : ℕ) ≥ 1 := by
  constructor
  · funext i j
    simp [sinkhornLogit, sinkhornIter, colNorm, rowNorm]
  · exact le_refl 1

open Sinkhorn in
/-- C10 (amended): `sinkhorn` mutates the caller's logit tensor in place:
after the call, for any iteration count at least 1, the tensor holds
exactly the entrywise log of the returned matrix (which may coincide with
the original values when the input is already log-normalized). -/
theorem claimC10_amended {n : ℕ} (L : Matrix (Fin n) (Fin n) ℝ) (iters : ℕ)
    (h : 1 ≤ iters) :
    sinkhornLogit L iters = (sinkhorn L iters).map Real.log := by
  funext i j
  simp [sinkhorn, Matrix.map_apply, Real.log_exp]

open Sinkhorn in
/-- Witness for C10 (amended): the 1x1 zero logit matrix with one
iteration. -/
theorem claimC10_witness : (1 : ℕ) ≤ 1 ∧
    sinkhornLogit (fun _ _ => (0 : ℝ) : Matrix (Fin 1) (Fin 1) ℝ) 1
      = (sinkhorn (fun _ _ => (0 : ℝ) : Matrix (Fin 1) (Fin 1) ℝ) 1).map Real.log :=
  ⟨le_refl 1, claimC10_amended (fun _ _ => (0 : ℝ) : Matrix (Fin 1) (Fin 1) ℝ) 1 (le_refl 1)⟩
